import Mathlib

/-!
Verification of the concept canonicalization and mastery aggregation engine
(`backend/data/profile_store.py`): lexical normalization, alias table,
similarity fallback, activity vectors, profile upserts and learning events.

Machine floats of the source are modelled by `ℚ`; the operations involved
(addition, `min`, `max`, comparison) are exact on the values the claims use.
Database tables are modelled as association lists keyed the way the SQL
schema keys them.  Timestamps (`datetime.utcnow().isoformat()`) are threaded
through as an opaque `now : String` parameter.
-/

namespace DeepStudy

/-- The ASCII whitespace code points removed by Python `str.strip()`
(space, tab, newline, carriage return, vertical tab, form feed).
Unicode-only whitespace code points are outside the model. -/
def isPySpace (c : Char) : Bool :=
  c.toNat = 32 || c.toNat = 9 || c.toNat = 10 || c.toNat = 13 ||
    c.toNat = 11 || c.toNat = 12

/-- Python `str.strip()`: drop whitespace from both ends. -/
def pyStrip (cs : List Char) : List Char :=
  (cs.dropWhile isPySpace).rdropWhile isPySpace

/-- Python `"".join(ch.lower() if ch.isascii() else ch for ch in text)`.
For an ASCII character `lower` only moves `A`–`Z` to `a`–`z`, which is
exactly `Char.toLower`; non-ASCII characters pass through unchanged,
which is also `Char.toLower`. -/
def lowerAscii (cs : List Char) : List Char :=
  cs.map Char.toLower

/-- The noise suffixes of `ConceptNormalizer._lexical_normalize`, in the
order the source iterates over them. -/
def noiseSuffixes : List (List Char) :=
  ["的概念".toList, "概念".toList, "简介".toList]

/-- One iteration of the suffix loop:
`if text.endswith(suffix) and len(text) > len(suffix) + 1:
   text = text[: -len(suffix)].strip()`. -/
def stripNoiseStep (t sfx : List Char) : List Char :=
  if sfx.isSuffixOf t ∧ sfx.length + 1 < t.length then
    pyStrip (t.take (t.length - sfx.length))
  else t

/-- `ConceptNormalizer._lexical_normalize`: strip, return `""` when empty,
ASCII-lowercase, then run the noise-suffix loop. -/
def lexicalNormalize (raw : List Char) : List Char :=
  let t := pyStrip raw
  if t = [] then [] else noiseSuffixes.foldl stripNoiseStep (lowerAscii t)

/-- `_lexical_normalize` on `String`s. -/
def lexicalNormalizeStr (raw : String) : String :=
  String.mk (lexicalNormalize raw.toList)

example : lexicalNormalizeStr "  Gradient Descent  " = "gradient descent" := by decide
example : lexicalNormalizeStr "梯度下降的概念" = "梯度下降" := by decide
example : lexicalNormalizeStr "x概念" = "x概念" := by decide
example : lexicalNormalizeStr "xy概念概念" = "xy概念" := by decide
example : lexicalNormalizeStr "xy概念" = "xy" := by decide
/-- `_clamp01`: clip a value to the interval `[0, 1]`
(`max(0.0, min(1.0, value))`). -/
def clamp01 (value : ℚ) : ℚ := max 0 (min 1 value)

/-- The three-dimensional increment vector of a learning activity
(`ActivityVector` dataclass). -/
structure ActivityVector where
  u : ℚ
  r : ℚ
  a : ℚ
deriving DecidableEq

/-- `profile_config.activity_weights`, modelled as an association list.
`activity in dict` / `dict[activity]` on a Python dict with unique keys is
`List.find?` on the key. -/
abbrev ActivityWeights := List (String × ActivityVector)

/-- The built-in default `ProfileConfig.activity_weights` (no
`profile_config.json` file ships with the repository, so these defaults
are the live configuration). -/
def defaultActivityWeights : ActivityWeights :=
  [("explain", ⟨8/100, 4/100, 2/100⟩),
   ("derive", ⟨4/100, 9/100, 3/100⟩),
   ("practice", ⟨4/100, 5/100, 8/100⟩),
   ("recall", ⟨5/100, 2/100, 0⟩)]

/-- `get_activity_vector`: exact dictionary lookup, falling back to the
`explain` entry, falling back to the hard-coded
`ActivityVector(0.05, 0.03, 0.02)`. -/
def get_activity_vector (weights : ActivityWeights) (activity : String) :
    ActivityVector :=
  match weights.find? (fun p => p.1 = activity) with
  | some p => p.2
  | none =>
    match weights.find? (fun p => p.1 = "explain") with
    | some p => p.2
    | none => ⟨5/100, 3/100, 2/100⟩

/-- One row of the `concept_profiles` table (keyed by
`(concept_key, user_id)`, which is the table's primary key). -/
structure ProfileRow where
  u : ℚ
  r : ℚ
  a : ℚ
  times : ℤ
  last_practice : String
deriving DecidableEq

/-- The `concept_profiles` table: association list keyed by
`(concept_key, user_id)`. -/
abbrev ProfileTable := List ((String × String) × ProfileRow)

/-- `SELECT u, r, a, times, last_practice FROM concept_profiles WHERE
concept_key = ? AND user_id = ?` followed by `fetchone`. -/
def lookupRow (profiles : ProfileTable) (key user : String) :
    Option ProfileRow :=
  (profiles.find? (fun e => e.1 = (key, user))).map (fun e => e.2)

/-- The SQLite state the engine touches: the `concept_profiles` table and
the `conversation_concepts` lineage table (rows
`(conversation_id, concept_key, user_id)`, that triple being the primary
key). -/
structure DB where
  profiles : ProfileTable
  convConcepts : List (String × String × String)
deriving DecidableEq

/-- `upsert_concept_profile`: no-op on an empty key; otherwise read the
row for `(concept_key, user_id)`, and either `UPDATE` it with
per-dimension `clamp01(old + delta)`, `times + 1` and `last_practice =
now`, or `INSERT` a fresh row with per-dimension `clamp01(delta)` and
`times = 1`. -/
def upsert_concept_profile (now concept_key : String)
    (delta_u delta_r delta_a : ℚ) (user_id : String) (db : DB) : DB :=
  if concept_key = "" then db
  else
    match lookupRow db.profiles concept_key user_id with
    | some row =>
      let newRow : ProfileRow :=
        { u := clamp01 (row.u + delta_u), r := clamp01 (row.r + delta_r),
          a := clamp01 (row.a + delta_a), times := row.times + 1,
          last_practice := now }
      { db with
        profiles := db.profiles.map (fun e =>
          if e.1 = (concept_key, user_id) then (e.1, newRow) else e) }
    | none =>
      { db with
        profiles := db.profiles ++
          [((concept_key, user_id),
            { u := clamp01 delta_u, r := clamp01 delta_r,
              a := clamp01 delta_a, times := 1, last_practice := now })] }

/-- `record_conversation_concepts`: guard on empty inputs, then
`INSERT OR IGNORE` each non-empty key under the
`(conversation_id, concept_key, user_id)` primary key. -/
def record_conversation_concepts (conversation_id : String)
    (concept_keys : List String) (user_id : String) (db : DB) : DB :=
  if conversation_id = "" ∨ concept_keys = [] then db
  else
    { db with
      convConcepts := concept_keys.foldl (fun acc key =>
        if key = "" then acc
        else if (conversation_id, key, user_id) ∈ acc then acc
        else acc ++ [(conversation_id, key, user_id)]) db.convConcepts }

/-- The state of a `ConceptNormalizer` at the time `normalize` runs:
`_aliases` (already lexically normalized by `_load_aliases`), the
post-`_ensure_canonical_embeddings` cache `_canonical_embeddings`,
`_embed_model` (`none` models a model that failed to load;
`some f` models a loaded model, with `f n = none` modelling
`get_text_embedding` raising for the query `n`), and
`profile_config.embedding_similarity_threshold`.  `sim` abstracts
`_cosine_similarity`, a pure float computation whose exact value no
claim depends on. -/
structure NormState where
  aliases : List (String × String)
  cache : List (String × List ℚ)
  model : Option (String → Option (List ℚ))
  sim : List ℚ → List ℚ → ℚ
  threshold : ℚ

/-- The best-scoring cached canonical: the source loop starting from
`best_name = None, best_score = 0.0`, skipping empty cached vectors and
updating on strictly larger scores. -/
def bestMatch (sim : List ℚ → List ℚ → ℚ) (emb : List ℚ)
    (cache : List (String × List ℚ)) : Option String × ℚ :=
  cache.foldl (fun acc p =>
    if p.2 = [] then acc
    else
      let s := sim emb p.2
      if acc.2 < s then (some p.1, s) else acc) (none, 0)

/-- `ConceptNormalizer.normalize`: lexical normalization, then the alias
dictionary, then the embedding-similarity merge, returning the lexical
form whenever the similarity step is unavailable or misses. -/
def normalize (st : NormState) (raw : String) : String :=
  let n := lexicalNormalizeStr raw
  if n = "" then ""
  else
    match st.aliases.find? (fun p => p.1 = n) with
    | some p => p.2
    | none =>
      if st.cache = [] then n
      else
        match st.model with
        | none => n
        | some embed =>
          match embed n with
          | none => n
          | some emb =>
            match bestMatch st.sim emb st.cache with
            | (some nm, score) =>
              if nm ≠ "" ∧ st.threshold ≤ score then nm else n
            | (none, _) => n

/-- Python dict lookup `d.get(k)` on a dict modelled as an association
list with unique keys. -/
def dictLookup (d : List (String × String)) (k : String) : Option String :=
  (d.find? (fun p => p.1 = k)).map (fun p => p.2)

/-- Python `k in d`. -/
def dictContains (d : List (String × String)) (k : String) : Bool :=
  (d.find? (fun p => p.1 = k)).isSome

/-- Python `d[k] = v`: replace the value in place when the key exists
(preserving insertion order), else append the new pair. -/
def dictInsert (d : List (String × String)) (k v : String) :
    List (String × String) :=
  if dictContains d k then
    d.map (fun p => if p.1 = k then (k, v) else p)
  else d ++ [(k, v)]

/-- `ConceptNormalizer._load_aliases` applied to the persisted
`aliases` object of `profile_aliases.json`: build the in-memory dict
with both sides lexically normalized. -/
def loadAliases (file : List (String × String)) : List (String × String) :=
  file.foldl (fun acc p =>
    dictInsert acc (lexicalNormalizeStr p.1) (lexicalNormalizeStr p.2)) []

/-- One iteration of the merge loop of `append_aliases_and_reload`:
`alias = item.get("alias") or ""; canonical = item.get("canonical") or "";
if alias and canonical and alias != canonical: aliases[alias] = canonical`. -/
def appendStep (acc : List (String × String)) (p : String × String) :
    List (String × String) :=
  if p.1 ≠ "" ∧ p.2 ≠ "" ∧ p.1 ≠ p.2 then dictInsert acc p.1 p.2 else acc

/-- The merge loop of `append_aliases_and_reload` over the whole
suggestion list. -/
def appendAliases (file : List (String × String))
    (suggs : List (String × String)) : List (String × String) :=
  suggs.foldl appendStep file

/-- `append_aliases_and_reload` on the pair (persisted file dict,
in-memory alias table): an empty suggestion list returns untouched
state; otherwise the merged dict is persisted and the in-memory table is
reloaded from it (`concept_normalizer.reload_aliases()`). -/
def append_aliases_and_reload (file mem : List (String × String))
    (suggs : List (String × String)) :
    List (String × String) × List (String × String) :=
  if suggs = [] then (file, mem)
  else
    let f := appendAliases file suggs
    (f, loadAliases f)

/-- `(activity or "").strip().lower() or "explain"` — the label
`apply_learning_event_to_concepts` feeds to `get_activity_vector`.
(`str.lower()` coincides with ASCII lowering on the ASCII labels this
configuration uses.) -/
def effectiveActivity (activity : Option String) : String :=
  let e := String.mk (lowerAscii (pyStrip (activity.getD "").toList))
  if e = "" then "explain" else e

/-- `apply_learning_event_to_concepts`: zero vector on an empty mention
list, otherwise normalize each mention, drop the empty results (no
deduplication), upsert the activity's delta vector once per surviving
name, optionally record lineage, and return the delta vector. -/
def apply_learning_event_to_concepts (st : NormState)
    (weights : ActivityWeights) (now : String) (raw_concepts : List String)
    (activity : Option String) (user_id : String)
    (conversation_id : Option String) (db : DB) : ActivityVector × DB :=
  if raw_concepts = [] then (⟨0, 0, 0⟩, db)
  else
    let vec := get_activity_vector weights (effectiveActivity activity)
    let normalized := (raw_concepts.map (normalize st)).filter
      (fun n => n ≠ "")
    if normalized = [] then (⟨0, 0, 0⟩, db)
    else
      let db1 := normalized.foldl (fun d name =>
        upsert_concept_profile now name vec.u vec.r vec.a user_id d) db
      let db2 := match conversation_id with
        | none => db1
        | some cid =>
          if cid = "" then db1
          else record_conversation_concepts cid normalized user_id db1
      (vec, db2)

/-! ## Helper lemmas about the profile table -/

theorem lookupRow_map_update (profiles : ProfileTable) (key user : String)
    (newRow : ProfileRow) (e0 : (String × String) × ProfileRow)
    (h : profiles.find? (fun e => e.1 = (key, user)) = some e0) :
    lookupRow (profiles.map fun e =>
      if e.1 = (key, user) then (e.1, newRow) else e) key user =
      some newRow := by
  have hp : e0.1 = (key, user) := by
    have := List.find?_some h
    simpa using this
  unfold lookupRow
  rw [List.find?_map]
  have hcomp :
      ((fun e : (String × String) × ProfileRow => decide (e.1 = (key, user)))
          ∘ fun e => if e.1 = (key, user) then (e.1, newRow) else e) =
        fun e : (String × String) × ProfileRow =>
          decide (e.1 = (key, user)) := by
    funext e
    by_cases hh : e.1 = (key, user) <;> simp [hh]
  rw [hcomp, h]
  simp [hp]

theorem lookupRow_append_single (profiles : ProfileTable) (key user : String)
    (row : ProfileRow) (h : lookupRow profiles key user = none) :
    lookupRow (profiles ++ [((key, user), row)]) key user = some row := by
  unfold lookupRow at h ⊢
  have hf : profiles.find? (fun e => e.1 = (key, user)) = none := by
    rcases hh : profiles.find? (fun e => e.1 = (key, user)) with _ | e
    · exact hh
    · rw [hh] at h; simp at h
  rw [List.find?_append, hf]
  simp

/-! ## C9 -/

/-- C9: `upsert_concept_profile` with an empty `concept_key` is a complete
no-op — the returned database state (profile rows and lineage records
alike) is the input state. -/
theorem upsert_empty_key_noop (now : String) (du dr da : ℚ)
    (user : String) (db : DB) :
    upsert_concept_profile now "" du dr da user db = db := by
  simp [upsert_concept_profile]

/-! ## C1 -/

/-- The `[0,1]` bounds on one profile row's three mastery dimensions. -/
def rowOK (row : ProfileRow) : Prop :=
  0 ≤ row.u ∧ row.u ≤ 1 ∧ 0 ≤ row.r ∧ row.r ≤ 1 ∧ 0 ≤ row.a ∧ row.a ≤ 1

/-- Every row of the `concept_profiles` table satisfies the bounds. -/
def storeOK (db : DB) : Prop := ∀ e ∈ db.profiles, rowOK e.2

/-- One call to `upsert_concept_profile`, with arbitrary real deltas. -/
structure UpsertCall where
  now : String
  key : String
  du : ℚ
  dr : ℚ
  da : ℚ
  user : String

/-- A sequence of `upsert_concept_profile` calls applied in order. -/
def applyUpserts (db : DB) (calls : List UpsertCall) : DB :=
  calls.foldl (fun d c =>
    upsert_concept_profile c.now c.key c.du c.dr c.da c.user d) db

theorem clamp01_nonneg (x : ℚ) : 0 ≤ clamp01 x := le_max_left 0 _

theorem clamp01_le_one (x : ℚ) : clamp01 x ≤ 1 :=
  max_le zero_le_one (min_le_left 1 x)

theorem upsert_preserves_storeOK (now key : String) (du dr da : ℚ)
    (user : String) (db : DB) (h : storeOK db) :
    storeOK (upsert_concept_profile now key du dr da user db) := by
  unfold upsert_concept_profile
  split
  · exact h
  · split
    · intro e he
      simp only [List.mem_map] at he
      obtain ⟨e0, he0, rfl⟩ := he
      split
      · exact ⟨clamp01_nonneg _, clamp01_le_one _, clamp01_nonneg _,
          clamp01_le_one _, clamp01_nonneg _, clamp01_le_one _⟩
      · exact h e0 he0
    · intro e he
      simp only [List.mem_append, List.mem_singleton] at he
      rcases he with he | rfl
      · exact h e he
      · exact ⟨clamp01_nonneg _, clamp01_le_one _, clamp01_nonneg _,
          clamp01_le_one _, clamp01_nonneg _, clamp01_le_one _⟩

/-- C1: under any sequence of `upsert_concept_profile` calls with
arbitrary (positive or negative) deltas, every stored `u`, `r`, `a`
stays in `[0,1]`; moreover `clamp01` always lands in `[0,1]`, a sum
pushed above `1` is stored as exactly `1`, and a sum pushed below `0`
is stored as exactly `0` (both the update path, which stores
`clamp01(old + delta)`, and the insert path, which stores
`clamp01(delta)`, only ever write `clamp01` values, as
`upsert_preserves_storeOK` traverses both branches). -/
theorem mastery_dimensions_stay_in_unit_interval :
    (∀ (db : DB) (calls : List UpsertCall),
      storeOK db → storeOK (applyUpserts db calls))
    ∧ (∀ x : ℚ, 0 ≤ clamp01 x ∧ clamp01 x ≤ 1
        ∧ (1 < x → clamp01 x = 1) ∧ (x < 0 → clamp01 x = 0)) := by
  constructor
  · intro db calls
    induction calls generalizing db with
    | nil => exact fun h => h
    | cons c rest ih =>
      intro h
      exact ih _ (upsert_preserves_storeOK _ _ _ _ _ _ _ h)
  · intro x
    refine ⟨clamp01_nonneg x, clamp01_le_one x, fun h1 => ?_, fun h0 => ?_⟩
    · unfold clamp01
      rw [min_eq_left h1.le, max_eq_right zero_le_one]
    · unfold clamp01
      rw [min_eq_right (h0.le.trans zero_le_one), max_eq_left h0.le]

/-- Witness for C1 at a concrete store and call sequence, including the
two clamp endpoints. -/
theorem mastery_dimensions_stay_in_unit_interval_witness :
    storeOK ⟨[], []⟩
    ∧ storeOK (applyUpserts ⟨[], []⟩ [⟨"t", "k", 2, -1, 1/2, "u"⟩])
    ∧ clamp01 2 = 1 ∧ clamp01 (-1) = 0 := by
  have h0 : storeOK (⟨[], []⟩ : DB) := fun e he => absurd he (List.not_mem_nil e)
  exact ⟨h0, mastery_dimensions_stay_in_unit_interval.1 _ _ h0,
    (mastery_dimensions_stay_in_unit_interval.2 2).2.2.1 (by norm_num),
    (mastery_dimensions_stay_in_unit_interval.2 (-1)).2.2.2 (by norm_num)⟩

/-! ## C2 -/

/-- C2: `upsert_concept_profile` with a non-empty key is a
read-modify-write — an existing `(concept_key, user_id)` row is replaced
by per-dimension `clamp01(old + delta)` with `times` incremented by
exactly `1` and `last_practice` set to the current time, and a missing row
is inserted as per-dimension `clamp01(delta)` with `times = 1`. -/
theorem upsert_read_modify_write (now key user : String) (du dr da : ℚ)
    (db : DB) (hkey : key ≠ "") :
    (∀ row, lookupRow db.profiles key user = some row →
      lookupRow (upsert_concept_profile now key du dr da user db).profiles
          key user =
        some ⟨clamp01 (row.u + du), clamp01 (row.r + dr),
          clamp01 (row.a + da), row.times + 1, now⟩)
    ∧ (lookupRow db.profiles key user = none →
      lookupRow (upsert_concept_profile now key du dr da user db).profiles
          key user =
        some ⟨clamp01 du, clamp01 dr, clamp01 da, 1, now⟩) := by
  constructor
  · intro row hrow
    have hfind : ∃ e0, db.profiles.find? (fun e => e.1 = (key, user)) = some e0
        ∧ e0.2 = row := by
      have hrow2 := hrow
      unfold lookupRow at hrow2
      rcases hh : db.profiles.find? (fun e => e.1 = (key, user)) with _ | e0
      · rw [hh] at hrow2; simp at hrow2
      · rw [hh] at hrow2
        exact ⟨e0, hh, by simpa using hrow2⟩
    obtain ⟨e0, he0, he2⟩ := hfind
    unfold upsert_concept_profile
    rw [if_neg hkey, hrow]
    exact lookupRow_map_update db.profiles key user _ e0 he0
  · intro hnone
    unfold upsert_concept_profile
    rw [if_neg hkey, hnone]
    exact lookupRow_append_single db.profiles key user _ hnone

/-- Witness for C2: one upsert on a fresh key with deltas
`(0.08, 0.04, 0.02)` yields the row `u=0.08, r=0.04, a=0.02, times=1`. -/
theorem upsert_read_modify_write_witness :
    ("gradient descent" : String) ≠ ""
    ∧ lookupRow (⟨[], []⟩ : DB).profiles "gradient descent" "u" = none
    ∧ lookupRow (upsert_concept_profile "t" "gradient descent"
        (8/100) (4/100) (2/100) "u" ⟨[], []⟩).profiles "gradient descent" "u"
      = some ⟨8/100, 4/100, 2/100, 1, "t"⟩ := by
  refine ⟨by decide, rfl, ?_⟩
  have h := (upsert_read_modify_write "t" "gradient descent" "u"
    (8/100) (4/100) (2/100) ⟨[], []⟩ (by decide)).2 rfl
  rw [h]
  norm_num [clamp01]

/-! ## C7 -/

/-- C7 counterexample: `get_activity_vector` matches case-sensitively,
not case-insensitively — under the shipped configuration the label
`"Practice"` falls through to the `explain` vector instead of matching
the `practice` entry, so the two casings disagree. -/
theorem get_activity_vector_not_case_insensitive_cex :
    get_activity_vector defaultActivityWeights "Practice"
        ≠ get_activity_vector defaultActivityWeights "practice"
    ∧ get_activity_vector defaultActivityWeights "Practice"
        = ⟨8/100, 4/100, 2/100⟩
    ∧ get_activity_vector defaultActivityWeights "practice"
        = ⟨4/100, 5/100, 8/100⟩ := by
  refine ⟨?_, rfl, rfl⟩
  have h8 : (get_activity_vector defaultActivityWeights "Practice").u
      = 8/100 := rfl
  have h4 : (get_activity_vector defaultActivityWeights "practice").u
      = 4/100 := rfl
  intro h
  rw [h, h4] at h8
  norm_num at h8

/-- C7 (amended): `get_activity_vector` returns the configured vector
for an exact case-sensitive match of the label (the caller lowercases
labels before the call); an unmatched label gets the configured
`explain` vector, and when `explain` is itself absent the fixed built-in
default `(0.05, 0.03, 0.02)`. -/
theorem get_activity_vector_lookup_spec (weights : ActivityWeights)
    (activity : String) :
    (∀ p, weights.find? (fun q => q.1 = activity) = some p →
      get_activity_vector weights activity = p.2)
    ∧ (weights.find? (fun q => q.1 = activity) = none →
        (∀ p, weights.find? (fun q => q.1 = "explain") = some p →
          get_activity_vector weights activity = p.2)
        ∧ (weights.find? (fun q => q.1 = "explain") = none →
          get_activity_vector weights activity = ⟨5/100, 3/100, 2/100⟩)) := by
  refine ⟨fun p hp => ?_, fun hn => ⟨fun p hp => ?_, fun he => ?_⟩⟩
  · unfold get_activity_vector
    rw [hp]
  · unfold get_activity_vector
    rw [hn, hp]
  · unfold get_activity_vector
    rw [hn, he]

/-- Witness for the amended C7: the three lookup outcomes at concrete
labels and configurations. -/
theorem get_activity_vector_lookup_spec_witness :
    get_activity_vector defaultActivityWeights "practice"
        = ⟨4/100, 5/100, 8/100⟩
    ∧ get_activity_vector defaultActivityWeights "quiz"
        = ⟨8/100, 4/100, 2/100⟩
    ∧ get_activity_vector [] "quiz" = ⟨5/100, 3/100, 2/100⟩ := by
  refine ⟨?_, ?_, ?_⟩
  · exact (get_activity_vector_lookup_spec defaultActivityWeights
      "practice").1 ("practice", ⟨4/100, 5/100, 8/100⟩) rfl
  · exact ((get_activity_vector_lookup_spec defaultActivityWeights
      "quiz").2 rfl).1 ("explain", ⟨8/100, 4/100, 2/100⟩) rfl
  · exact ((get_activity_vector_lookup_spec [] "quiz").2 rfl).2 rfl

/-! ## C8 -/

theorem find?_map_replace (d : List (String × String)) (a c : String) :
    (d.map fun p => if p.1 = a then (a, c) else p).find?
        (fun p => p.1 = a)
      = (d.find? (fun p => p.1 = a)).map (fun _ => (a, c)) := by
  induction d with
  | nil => rfl
  | cons p l ih =>
    by_cases hp : p.1 = a
    · simp [hp]
    · simp [hp, ih]

theorem find?_map_replace_ne (d : List (String × String)) (a b c : String)
    (hab : b ≠ a) :
    (d.map fun p => if p.1 = b then (b, c) else p).find?
        (fun p => p.1 = a)
      = d.find? (fun p => p.1 = a) := by
  induction d with
  | nil => rfl
  | cons p l ih =>
    by_cases hp : p.1 = b
    · rw [List.map_cons, if_pos hp,
        List.find?_cons_of_neg _ (by simp [hab]),
        List.find?_cons_of_neg _ (by simp [hp, hab]), ih]
    · by_cases hpa : p.1 = a
      · rw [List.map_cons, if_neg hp,
          List.find?_cons_of_pos _ (by simp [hpa]),
          List.find?_cons_of_pos _ (by simp [hpa])]
      · rw [List.map_cons, if_neg hp,
          List.find?_cons_of_neg _ (by simp [hpa]),
          List.find?_cons_of_neg _ (by simp [hpa]), ih]

theorem dictLookup_dictInsert_self (d : List (String × String))
    (a c : String) : dictLookup (dictInsert d a c) a = some c := by
  unfold dictInsert
  split
  · next hc =>
    unfold dictLookup
    rw [find?_map_replace]
    unfold dictContains at hc
    rcases hh : d.find? (fun p => p.1 = a) with _ | p
    · rw [hh] at hc; simp at hc
    · rw [hh]; rfl
  · next hc =>
    unfold dictLookup
    have hf : d.find? (fun p : String × String => p.1 = a) = none := by
      unfold dictContains at hc
      rcases hh : d.find? (fun p => p.1 = a) with _ | p
      · exact hh
      · rw [hh] at hc; simp at hc
    rw [List.find?_append, hf]
    simp

theorem dictLookup_dictInsert_ne (d : List (String × String))
    (a b c : String) (hab : b ≠ a) :
    dictLookup (dictInsert d b c) a = dictLookup d a := by
  unfold dictInsert
  split
  · unfold dictLookup
    rw [find?_map_replace_ne d a b c hab]
  · unfold dictLookup
    rw [List.find?_append]
    have h1 : List.find? (fun p : String × String => p.1 = a) [(b, c)]
        = none := by simp [hab]
    rw [h1]
    simp

theorem appendSteps_preserve (post : List (String × String))
    (acc : List (String × String)) (a c : String)
    (hacc : dictLookup acc a = some c)
    (hpost : ∀ q ∈ post, q.1 = a → (q.2 = "" ∨ q.2 = a)) :
    dictLookup (post.foldl appendStep acc) a = some c := by
  induction post generalizing acc with
  | nil => exact hacc
  | cons q rest ih =>
    rw [List.foldl_cons]
    apply ih
    · unfold appendStep
      split
      · next hq =>
        have hqa : q.1 ≠ a := by
          intro hh
          rcases hpost q (List.mem_cons_self q rest) hh with h2 | h2
          · exact hq.2.1 h2
          · exact hq.2.2 (hh.trans h2.symm)
        rw [dictLookup_dictInsert_ne acc a q.1 q.2 hqa]
        exact hacc
      · exact hacc
    · exact fun q' hq' => hpost q' (List.mem_cons_of_mem q hq')

/-- C8 counterexample: a suggestion pair whose alias key exists in the
stored table is NOT always written — a pair whose canonical equals its
alias (or is empty) is skipped by the merge loop, so the old mapping
survives instead of being overwritten by the new canonical value. -/
theorem append_aliases_overwrite_cex :
    dictContains [("a", "b")] "a" = true
    ∧ dictLookup (append_aliases_and_reload [("a", "b")]
        (loadAliases [("a", "b")]) [("a", "a")]).1 "a" = some "b"
    ∧ some ("b" : String) ≠ some "a" := by
  exact ⟨rfl, rfl, by decide⟩

/-- C8 (amended): the merge loop is last-write-wins for every suggestion
pair `(a, c)` whose alias and canonical are non-empty and distinct and
after which no further pair for alias `a` survives the same filter:
the persisted table then maps `a` to `c` (overwriting any previous
mapping), and the in-memory table is reloaded from the persisted table
after the write.  Pairs with an empty canonical or with
`canonical = alias` are skipped. -/
theorem append_aliases_last_write_wins
    (file mem pre post : List (String × String)) (a c : String)
    (hexists : dictContains file a = true)
    (ha : a ≠ "") (hc : c ≠ "") (hac : a ≠ c)
    (hpost : ∀ q ∈ post, q.1 = a → (q.2 = "" ∨ q.2 = a)) :
    dictLookup
        (append_aliases_and_reload file mem (pre ++ (a, c) :: post)).1 a
      = some c
    ∧ (append_aliases_and_reload file mem (pre ++ (a, c) :: post)).2
      = loadAliases
          (append_aliases_and_reload file mem (pre ++ (a, c) :: post)).1 := by
  have hne : pre ++ (a, c) :: post ≠ [] := by
    cases pre <;> simp
  unfold append_aliases_and_reload
  rw [if_neg hne]
  refine ⟨?_, rfl⟩
  unfold appendAliases
  rw [List.foldl_append, List.foldl_cons]
  apply appendSteps_preserve post _ a c ?_ hpost
  unfold appendStep
  rw [if_pos ⟨ha, hc, hac⟩]
  exact dictLookup_dictInsert_self _ a c

/-- Witness for the amended C8 at a concrete table and suggestion
list (the later `("a", "a")` pair is skipped by the filter, so
`("a", "c")` is the last effective write for alias `"a"`). -/
theorem append_aliases_last_write_wins_witness :
    dictContains [("a", "b")] "a" = true
    ∧ ("a" : String) ≠ "" ∧ ("c" : String) ≠ "" ∧ ("a" : String) ≠ "c"
    ∧ (∀ q ∈ ([("a", "a"), ("x", "y")] : List (String × String)),
        q.1 = "a" → (q.2 = "" ∨ q.2 = "a"))
    ∧ dictLookup (append_aliases_and_reload [("a", "b")]
        (loadAliases [("a", "b")])
        ([] ++ ("a", "c") :: [("a", "a"), ("x", "y")])).1 "a" = some "c" := by
  refine ⟨rfl, by decide, by decide, by decide, by decide, ?_⟩
  exact (append_aliases_last_write_wins [("a", "b")]
    (loadAliases [("a", "b")]) [] [("a", "a"), ("x", "y")] "a" "c"
    rfl (by decide) (by decide) (by decide) (by decide)).1

/-! ## C3 -/

/-- C3 counterexample: `normalize` can return the empty string on input
whose lexical normalization is non-empty.  `_load_aliases` lexically
normalizes canonical values, so the persisted entry
`{"foo": " "}` (reachable through `append_aliases_and_reload`, whose
filter accepts the whitespace canonical `" "`) loads as the in-memory
mapping `"foo" ↦ ""`, and the alias step then returns `""` for the
non-empty lexical form `"foo"`. -/
theorem normalize_empty_canonical_cex :
    normalize ⟨loadAliases [("foo", " ")], [], none, fun _ _ => 0, 88/100⟩
        "foo" = ""
    ∧ lexicalNormalizeStr "foo" = "foo"
    ∧ ("foo" : String) ≠ "" := by
  exact ⟨rfl, rfl, by decide⟩

/-- C3 (amended): `normalize` follows the short-circuiting pipeline —
it returns `""` iff the lexical form `n` is empty or the alias table
maps `n` to the empty string; a non-empty `n` found in the alias table
returns the mapped canonical; otherwise, when the similarity step finds
a cached canonical at or above the threshold it returns that canonical,
and in every remaining case (empty embedding cache, unavailable
embedding model, failing embedding computation, best score below
threshold or empty best name) it returns `n` itself. -/
theorem normalize_pipeline (st : NormState) (raw : String) :
    (lexicalNormalizeStr raw = "" → normalize st raw = "")
    ∧ (normalize st raw = "" ↔
        (lexicalNormalizeStr raw = ""
          ∨ ∃ p, st.aliases.find?
              (fun q => q.1 = lexicalNormalizeStr raw) = some p
            ∧ p.2 = ""))
    ∧ (∀ p, lexicalNormalizeStr raw ≠ "" →
        st.aliases.find? (fun q => q.1 = lexicalNormalizeStr raw) = some p →
        normalize st raw = p.2)
    ∧ (lexicalNormalizeStr raw ≠ "" →
        st.aliases.find? (fun q => q.1 = lexicalNormalizeStr raw) = none →
        st.cache = [] → normalize st raw = lexicalNormalizeStr raw)
    ∧ (lexicalNormalizeStr raw ≠ "" →
        st.aliases.find? (fun q => q.1 = lexicalNormalizeStr raw) = none →
        st.model = none → normalize st raw = lexicalNormalizeStr raw)
    ∧ (∀ f, lexicalNormalizeStr raw ≠ "" →
        st.aliases.find? (fun q => q.1 = lexicalNormalizeStr raw) = none →
        st.model = some f → f (lexicalNormalizeStr raw) = none →
        normalize st raw = lexicalNormalizeStr raw)
    ∧ (∀ f emb nm sc, lexicalNormalizeStr raw ≠ "" →
        st.aliases.find? (fun q => q.1 = lexicalNormalizeStr raw) = none →
        st.cache ≠ [] → st.model = some f →
        f (lexicalNormalizeStr raw) = some emb →
        bestMatch st.sim emb st.cache = (some nm, sc) →
        nm ≠ "" → st.threshold ≤ sc → normalize st raw = nm)
    ∧ (∀ f emb nm sc, lexicalNormalizeStr raw ≠ "" →
        st.aliases.find? (fun q => q.1 = lexicalNormalizeStr raw) = none →
        st.model = some f →
        f (lexicalNormalizeStr raw) = some emb →
        bestMatch st.sim emb st.cache = (some nm, sc) →
        ¬(nm ≠ "" ∧ st.threshold ≤ sc) →
        normalize st raw = lexicalNormalizeStr raw)
    ∧ (∀ f emb sc, lexicalNormalizeStr raw ≠ "" →
        st.aliases.find? (fun q => q.1 = lexicalNormalizeStr raw) = none →
        st.model = some f →
        f (lexicalNormalizeStr raw) = some emb →
        bestMatch st.sim emb st.cache = (none, sc) →
        normalize st raw = lexicalNormalizeStr raw) := by
  refine ⟨?h1, ?h2, ?h3, ?h4, ?h5, ?h6, ?h7, ?h8, ?h9⟩
  case h1 =>
    intro hn
    simp [normalize, hn]
  case h2 =>
    constructor
    · intro h0
      by_cases hn : lexicalNormalizeStr raw = ""
      · exact Or.inl hn
      · right
        rcases hh : st.aliases.find?
            (fun q => q.1 = lexicalNormalizeStr raw) with _ | p
        · exfalso
          simp only [normalize, if_neg hn, hh] at h0
          by_cases hc : st.cache = []
          · rw [if_pos hc] at h0; exact hn h0
          · rw [if_neg hc] at h0
            rcases hm : st.model with _ | f
            · simp only [hm] at h0; exact hn h0
            · simp only [hm] at h0
              rcases he : f (lexicalNormalizeStr raw) with _ | emb
              · simp only [he] at h0; exact hn h0
              · simp only [he] at h0
                rcases hb : bestMatch st.sim emb st.cache with ⟨onm, sc⟩
                rcases onm with _ | nm
                · simp only [hb] at h0; exact hn h0
                · simp only [hb] at h0
                  by_cases hg : nm ≠ "" ∧ st.threshold ≤ sc
                  · rw [if_pos hg] at h0; exact hg.1 h0
                  · rw [if_neg hg] at h0; exact hn h0
        · have hval : normalize st raw = p.2 := by
            simp only [normalize, if_neg hn, hh]
          exact ⟨p, hh, hval.symm.trans h0⟩
    · intro h0
      rcases h0 with hn | ⟨p, hp, hp2⟩
      · simp [normalize, hn]
      · by_cases hn : lexicalNormalizeStr raw = ""
        · simp [normalize, hn]
        · simp only [normalize, if_neg hn, hp]
          exact hp2
  case h3 =>
    intro p hn hp
    simp only [normalize, if_neg hn, hp]
  case h4 =>
    intro hn hf hc
    simp only [normalize, if_neg hn, hf, if_pos hc]
  case h5 =>
    intro hn hf hm
    by_cases hc : st.cache = []
    · simp only [normalize, if_neg hn, hf, if_pos hc]
    · simp only [normalize, if_neg hn, hf, if_neg hc, hm]
  case h6 =>
    intro f hn hf hm he
    by_cases hc : st.cache = []
    · simp only [normalize, if_neg hn, hf, if_pos hc]
    · simp only [normalize, if_neg hn, hf, if_neg hc, hm, he]
  case h7 =>
    intro f emb nm sc hn hf hc hm he hb hnm hth
    simp only [normalize, if_neg hn, hf, if_neg hc, hm, he, hb,
      if_pos (And.intro hnm hth)]
  case h8 =>
    intro f emb nm sc hn hf hm he hb hg
    by_cases hc : st.cache = []
    · simp only [normalize, if_neg hn, hf, if_pos hc]
    · simp only [normalize, if_neg hn, hf, if_neg hc, hm, he, hb,
        if_neg hg]
  case h9 =>
    intro f emb sc hn hf hm he hb
    by_cases hc : st.cache = []
    · simp only [normalize, if_neg hn, hf, if_pos hc]
    · simp only [normalize, if_neg hn, hf, if_neg hc, hm, he, hb]

/-- A concrete normalizer state exercising the amended C3: one alias
entry, one cached canonical embedding, a loaded embedding model, and a
similarity function that scores every comparison at `1`. -/
def normStateW : NormState :=
  ⟨[("ml", "machine learning")], [("deep learning", [1])],
    some (fun _ => some [1]), fun _ _ => 1, 88/100⟩

/-- A concrete normalizer state whose embedding model is unavailable. -/
def normStateNoModel : NormState :=
  ⟨[("ml", "machine learning")], [("deep learning", [1])], none,
    fun _ _ => 1, 88/100⟩

/-- Witness for the amended C3: the alias hit, the similarity hit and
the model-unavailable fallback at concrete inputs. -/
theorem normalize_pipeline_witness :
    normalize normStateW "ML" = "machine learning"
    ∧ normalize normStateW "neural" = "deep learning"
    ∧ normalize normStateNoModel "neural" = "neural" := by
  refine ⟨?_, ?_, ?_⟩
  · exact (normalize_pipeline normStateW "ML").2.2.1
      ("ml", "machine learning") (by decide) rfl
  · have hb : bestMatch normStateW.sim [1] normStateW.cache
        = (some "deep learning", 1) := by
      norm_num [bestMatch, normStateW]
    exact (normalize_pipeline normStateW "neural").2.2.2.2.2.2.1
      (fun _ => some [1]) [1] "deep learning" 1 (by decide) rfl
      (by simp [normStateW]) rfl rfl hb (by decide)
      (by norm_num [normStateW])
  · exact (normalize_pipeline normStateNoModel "neural").2.2.2.2.1
      (by decide) rfl rfl

/-! ## C10 -/

/-- C10: `apply_learning_event_to_concepts` returns the zero vector and
leaves the entire database state (profile rows and lineage records)
unchanged not only on an empty `raw_concepts` list but whenever every
mention normalizes to the empty string. -/
theorem apply_event_all_normalize_empty (st : NormState)
    (weights : ActivityWeights) (now : String) (raws : List String)
    (act : Option String) (user : String) (conv : Option String) (db : DB)
    (h : ∀ r ∈ raws, normalize st r = "") :
    apply_learning_event_to_concepts st weights now raws act user conv db
      = (⟨0, 0, 0⟩, db) := by
  by_cases hr : raws = []
  · simp [apply_learning_event_to_concepts, hr]
  · have hfilter : (raws.map (normalize st)).filter (fun n => n ≠ "")
        = [] := by
      rw [List.filter_eq_nil_iff]
      intro n hn
      rcases List.mem_map.mp hn with ⟨r, hr2, rfl⟩
      simp [h r hr2]
    simp only [apply_learning_event_to_concepts, if_neg hr]
    rw [hfilter]
    simp

/-- Witness for C10 at a whitespace-only mention list, a non-trivial
store, a non-empty lineage table and a provided conversation id. -/
theorem apply_event_all_normalize_empty_witness :
    (∀ r ∈ ([" ", "\t"] : List String),
      normalize ⟨[], [], none, fun _ _ => 0, 88/100⟩ r = "")
    ∧ apply_learning_event_to_concepts
        ⟨[], [], none, fun _ _ => 0, 88/100⟩ defaultActivityWeights "t"
        [" ", "\t"] (some "practice") "u" (some "c1")
        ⟨[(("k", "u"), ⟨1/2, 0, 0, 3, "s"⟩)], [("c0", "k", "u")]⟩
      = (⟨0, 0, 0⟩,
        ⟨[(("k", "u"), ⟨1/2, 0, 0, 3, "s"⟩)], [("c0", "k", "u")]⟩) := by
  have h : ∀ r ∈ ([" ", "\t"] : List String),
      normalize ⟨[], [], none, fun _ _ => 0, 88/100⟩ r = "" := by decide
  exact ⟨h, apply_event_all_normalize_empty _ _ _ _ _ _ _ _ h⟩

/-! ## C4 -/

theorem clamp01_self_add (v : ℚ) (hv : 0 ≤ v) :
    clamp01 (clamp01 v + v) = min 1 (2 * v) := by
  unfold clamp01
  rcases le_total 1 v with h1 | h1
  · rw [min_eq_left h1, max_eq_right zero_le_one,
      min_eq_left (by linarith : (1 : ℚ) ≤ 1 + v),
      max_eq_right zero_le_one,
      min_eq_left (by linarith : (1 : ℚ) ≤ 2 * v)]
  · rw [min_eq_right h1, max_eq_right hv, two_mul]
    exact max_eq_right (le_min zero_le_one (by linarith))

/-- C4: no deduplication of normalized keys — when two mentions of one
event normalize to the same fresh canonical key, the key is upserted
twice, ending with `times = 2` and per-dimension `min(1, 2·delta)` of
the activity's (non-negative) delta vector. -/
theorem apply_event_duplicate_mentions_compound (st : NormState)
    (weights : ActivityWeights) (now user : String) (db : DB)
    (r1 r2 k : String) (act : Option String) (vec : ActivityVector)
    (h1 : normalize st r1 = k) (h2 : normalize st r2 = k) (hk : k ≠ "")
    (hvec : get_activity_vector weights (effectiveActivity act) = vec)
    (hu : 0 ≤ vec.u) (hr : 0 ≤ vec.r) (ha : 0 ≤ vec.a)
    (hnone : lookupRow db.profiles k user = none) :
    lookupRow ((apply_learning_event_to_concepts st weights now [r1, r2]
        act user none db).2).profiles k user
      = some ⟨min 1 (2 * vec.u), min 1 (2 * vec.r), min 1 (2 * vec.a),
          2, now⟩ := by
  have hlist : ([r1, r2] : List String) ≠ [] := by simp
  have hnorm : (([r1, r2].map (normalize st)).filter (fun n => n ≠ ""))
      = [k, k] := by
    simp [h1, h2, hk]
  have hfresh := (upsert_read_modify_write now k user vec.u vec.r vec.a
    db hk).2 hnone
  have hsecond := (upsert_read_modify_write now k user vec.u vec.r vec.a
    (upsert_concept_profile now k vec.u vec.r vec.a user db) hk).1 _ hfresh
  simp only [apply_learning_event_to_concepts, if_neg hlist, hvec, hnorm,
    List.foldl_cons, List.foldl_nil]
  rw [if_neg (by simp : ¬([k, k] : List String) = [])]
  rw [hsecond]
  norm_num [clamp01_self_add vec.u hu, clamp01_self_add vec.r hr,
    clamp01_self_add vec.a ha]

/-- A concrete normalizer state for the C4 scenario: the alias table
maps `"梯度下降"` to `"gradient descent"`, and `"Gradient Descent"`
lexically normalizes to the same canonical. -/
def normStateCn : NormState :=
  ⟨[("梯度下降", "gradient descent")], [], none, fun _ _ => 0, 88/100⟩

/-- Witness for C4: the spec's scenario — both mentions normalize to
`"gradient descent"`, activity `practice` `(0.04, 0.05, 0.08)`, and the
fresh key ends at `u = 0.08, r = 0.10, a = 0.16, times = 2`. -/
theorem apply_event_duplicate_mentions_compound_witness :
    normalize normStateCn "梯度下降" = "gradient descent"
    ∧ normalize normStateCn "Gradient Descent" = "gradient descent"
    ∧ lookupRow ((apply_learning_event_to_concepts normStateCn
        defaultActivityWeights "t" ["梯度下降", "Gradient Descent"]
        (some "practice") "u" none ⟨[], []⟩).2).profiles
        "gradient descent" "u"
      = some ⟨min 1 (2 * (4/100)), min 1 (2 * (5/100)),
          min 1 (2 * (8/100)), 2, "t"⟩
    ∧ min (1 : ℚ) (2 * (4/100)) = 8/100
    ∧ min (1 : ℚ) (2 * (5/100)) = 10/100
    ∧ min (1 : ℚ) (2 * (8/100)) = 16/100 := by
  refine ⟨by decide, by decide, ?_, by norm_num, by norm_num, by norm_num⟩
  exact apply_event_duplicate_mentions_compound normStateCn
    defaultActivityWeights "t" "u" ⟨[], []⟩ "梯度下降" "Gradient Descent"
    "gradient descent" (some "practice") ⟨4/100, 5/100, 8/100⟩
    (by decide) (by decide) (by decide) rfl
    (by norm_num) (by norm_num) (by norm_num) rfl

/-! ## Lemmas about `pyStrip`, `lowerAscii` and the noise-suffix loop -/

theorem head?_append_left {α : Type} (l₁ l₂ : List α) (h : l₁ ≠ []) :
    (l₁ ++ l₂).head? = l₁.head? := by
  cases l₁ with
  | nil => exact absurd rfl h
  | cons a t => rfl

theorem head?_dropWhile_not (p : Char → Bool) (l : List Char) :
    ∀ a, (l.dropWhile p).head? = some a → ¬p a := by
  induction l with
  | nil => intro a ha; simp at ha
  | cons b t ih =>
    intro a ha
    by_cases hb : p b
    · rw [List.dropWhile_cons, if_pos hb] at ha
      exact ih a ha
    · rw [List.dropWhile_cons, if_neg hb] at ha
      cases ha
      exact hb

theorem dropWhile_eq_self_of_head? (p : Char → Bool) (l : List Char)
    (h : ∀ a, l.head? = some a → ¬p a) : l.dropWhile p = l := by
  cases l with
  | nil => rfl
  | cons a t => rw [List.dropWhile_cons, if_neg (h a rfl)]

theorem pyStrip_dropWhile (l : List Char) :
    (pyStrip l).dropWhile isPySpace = pyStrip l := by
  apply dropWhile_eq_self_of_head?
  intro a ha
  obtain ⟨t, ht⟩ :=
    List.rdropWhile_prefix isPySpace (l.dropWhile isPySpace)
  have hne : pyStrip l ≠ [] := by
    intro h0
    rw [h0] at ha
    simp at ha
  have ht2 : pyStrip l ++ t = l.dropWhile isPySpace := ht
  have h2 : (l.dropWhile isPySpace).head? = some a := by
    rw [← ht2, head?_append_left _ t hne]
    exact ha
  exact head?_dropWhile_not isPySpace l a h2

theorem pyStrip_idem (l : List Char) : pyStrip (pyStrip l) = pyStrip l := by
  show ((pyStrip l).dropWhile isPySpace).rdropWhile isPySpace = pyStrip l
  rw [pyStrip_dropWhile]
  exact List.rdropWhile_idempotent isPySpace (l.dropWhile isPySpace)

theorem pyStrip_sublist (l : List Char) : (pyStrip l).Sublist l :=
  ((List.rdropWhile_prefix isPySpace (l.dropWhile isPySpace)).sublist).trans
    ((List.dropWhile_suffix isPySpace).sublist)

theorem pyStrip_length_le (l : List Char) :
    (pyStrip l).length ≤ l.length :=
  (pyStrip_sublist l).length_le

theorem pyStrip_subset (l : List Char) :
    ∀ c ∈ pyStrip l, c ∈ l :=
  fun _ hc => (pyStrip_sublist l).subset hc

theorem dropWhile_map_of_comm (f : Char → Char)
    (hf : ∀ c, isPySpace (f c) = isPySpace c) (m : List Char) :
    (m.map f).dropWhile isPySpace = (m.dropWhile isPySpace).map f := by
  induction m with
  | nil => rfl
  | cons a t ih =>
    by_cases ha : isPySpace a
    · simp [List.dropWhile_cons, hf, ha, ih]
    · simp [List.dropWhile_cons, hf, ha]

theorem pyStrip_map_comm (f : Char → Char)
    (hf : ∀ c, isPySpace (f c) = isPySpace c) (l : List Char) :
    pyStrip (l.map f) = (pyStrip l).map f := by
  unfold pyStrip List.rdropWhile
  simp only [dropWhile_map_of_comm f hf, ← List.map_reverse]

theorem toNat_ofNat_valid {n : Nat} (h : n.isValidChar) :
    (Char.ofNat n).toNat = n := by
  unfold Char.ofNat
  rw [dif_pos h]
  rfl

theorem toLower_toLower (c : Char) : c.toLower.toLower = c.toLower := by
  by_cases h : c.toNat ≥ 65 ∧ c.toNat ≤ 90
  · have h1 : Char.toLower c = Char.ofNat (c.toNat + 32) := by
      show (if c.toNat ≥ 65 ∧ c.toNat ≤ 90 then Char.ofNat (c.toNat + 32)
        else c) = Char.ofNat (c.toNat + 32)
      rw [if_pos h]
    have ht : (Char.ofNat (c.toNat + 32)).toNat = c.toNat + 32 :=
      toNat_ofNat_valid (Or.inl (by omega))
    rw [h1]
    show (if (Char.ofNat (c.toNat + 32)).toNat ≥ 65
        ∧ (Char.ofNat (c.toNat + 32)).toNat ≤ 90
      then Char.ofNat ((Char.ofNat (c.toNat + 32)).toNat + 32)
      else Char.ofNat (c.toNat + 32)) = Char.ofNat (c.toNat + 32)
    rw [if_neg (by rw [ht]; omega)]
  · have h1 : Char.toLower c = c := by
      show (if c.toNat ≥ 65 ∧ c.toNat ≤ 90 then Char.ofNat (c.toNat + 32)
        else c) = c
      rw [if_neg h]
    rw [h1, h1]

theorem isPySpace_false_of_65le (c : Char) (h : 65 ≤ c.toNat) :
    isPySpace c = false := by
  unfold isPySpace
  have h1 : c.toNat ≠ 32 := by omega
  have h2 : c.toNat ≠ 9 := by omega
  have h3 : c.toNat ≠ 10 := by omega
  have h4 : c.toNat ≠ 13 := by omega
  have h5 : c.toNat ≠ 11 := by omega
  have h6 : c.toNat ≠ 12 := by omega
  simp [h1, h2, h3, h4, h5, h6]

theorem isPySpace_toLower (c : Char) :
    isPySpace c.toLower = isPySpace c := by
  by_cases h : c.toNat ≥ 65 ∧ c.toNat ≤ 90
  · have h1 : Char.toLower c = Char.ofNat (c.toNat + 32) := by
      show (if c.toNat ≥ 65 ∧ c.toNat ≤ 90 then Char.ofNat (c.toNat + 32)
        else c) = Char.ofNat (c.toNat + 32)
      rw [if_pos h]
    have ht : (Char.ofNat (c.toNat + 32)).toNat = c.toNat + 32 :=
      toNat_ofNat_valid (Or.inl (by omega))
    rw [h1, isPySpace_false_of_65le _ (by omega),
      isPySpace_false_of_65le c h.1]
  · have h1 : Char.toLower c = c := by
      show (if c.toNat ≥ 65 ∧ c.toNat ≤ 90 then Char.ofNat (c.toNat + 32)
        else c) = c
      rw [if_neg h]
    rw [h1]

theorem lowerAscii_eq_self (l : List Char)
    (h : ∀ c ∈ l, Char.toLower c = c) : lowerAscii l = l :=
  (List.map_congr_left h).trans (List.map_id l)

theorem stripNoiseStep_pyStrip (t sfx : List Char) (ht : pyStrip t = t) :
    pyStrip (stripNoiseStep t sfx) = stripNoiseStep t sfx := by
  unfold stripNoiseStep
  split
  · exact pyStrip_idem _
  · exact ht

theorem foldl_stripNoiseStep_pyStrip (sfxs : List (List Char))
    (t : List Char) (ht : pyStrip t = t) :
    pyStrip (sfxs.foldl stripNoiseStep t) = sfxs.foldl stripNoiseStep t := by
  induction sfxs generalizing t with
  | nil => exact ht
  | cons s rest ih =>
    rw [List.foldl_cons]
    exact ih _ (stripNoiseStep_pyStrip t s ht)

theorem stripNoiseStep_subset (t sfx : List Char) :
    ∀ c ∈ stripNoiseStep t sfx, c ∈ t := by
  unfold stripNoiseStep
  split
  · intro c hc
    exact List.take_subset _ _ (pyStrip_subset _ c hc)
  · intro c hc
    exact hc

theorem foldl_stripNoiseStep_subset (sfxs : List (List Char))
    (t : List Char) : ∀ c ∈ sfxs.foldl stripNoiseStep t, c ∈ t := by
  induction sfxs generalizing t with
  | nil => intro c hc; exact hc
  | cons s rest ih =>
    intro c hc
    rw [List.foldl_cons] at hc
    exact stripNoiseStep_subset t s c (ih _ c hc)

theorem foldl_stripNoiseStep_eq_self (sfxs : List (List Char))
    (t : List Char) (h : ∀ sfx ∈ sfxs, stripNoiseStep t sfx = t) :
    sfxs.foldl stripNoiseStep t = t := by
  induction sfxs with
  | nil => rfl
  | cons s rest ih =>
    rw [List.foldl_cons, h s (List.mem_cons_self s rest)]
    exact ih fun sfx hs => h sfx (List.mem_cons_of_mem s hs)

theorem lexicalNormalize_fix (l : List Char)
    (h : ∀ sfx ∈ noiseSuffixes,
      ¬(sfx.isSuffixOf (lexicalNormalize l)
        ∧ sfx.length + 1 < (lexicalNormalize l).length)) :
    lexicalNormalize (lexicalNormalize l) = lexicalNormalize l := by
  by_cases hu : lexicalNormalize l = []
  · rw [hu]; rfl
  · have hrep : lexicalNormalize l
        = noiseSuffixes.foldl stripNoiseStep (lowerAscii (pyStrip l)) := by
      by_cases hts : pyStrip l = []
      · exfalso
        apply hu
        show (if pyStrip l = [] then []
          else noiseSuffixes.foldl stripNoiseStep (lowerAscii (pyStrip l)))
          = []
        rw [if_pos hts]
      · show (if pyStrip l = [] then []
          else noiseSuffixes.foldl stripNoiseStep (lowerAscii (pyStrip l)))
          = noiseSuffixes.foldl stripNoiseStep (lowerAscii (pyStrip l))
        rw [if_neg hts]
    have hstrip : pyStrip (lexicalNormalize l) = lexicalNormalize l := by
      rw [hrep]
      apply foldl_stripNoiseStep_pyStrip
      rw [show pyStrip (lowerAscii (pyStrip l))
          = lowerAscii (pyStrip (pyStrip l)) from
        pyStrip_map_comm Char.toLower isPySpace_toLower (pyStrip l),
        pyStrip_idem]
    have hlower : lowerAscii (lexicalNormalize l) = lexicalNormalize l := by
      apply lowerAscii_eq_self
      intro c hc
      have hc2 : c ∈ lowerAscii (pyStrip l) := by
        rw [hrep] at hc
        exact foldl_stripNoiseStep_subset _ _ c hc
      rcases List.mem_map.mp hc2 with ⟨c0, _, rfl⟩
      exact toLower_toLower c0
    have hfold :
        noiseSuffixes.foldl stripNoiseStep (lexicalNormalize l)
          = lexicalNormalize l := by
      apply foldl_stripNoiseStep_eq_self
      intro sfx hs
      unfold stripNoiseStep
      rw [if_neg (h sfx hs)]
    show (if pyStrip (lexicalNormalize l) = [] then []
      else noiseSuffixes.foldl stripNoiseStep
        (lowerAscii (pyStrip (lexicalNormalize l))))
      = lexicalNormalize l
    rw [hstrip, if_neg hu, hlower, hfold]

/-! ## C5 -/

/-- C5 counterexample: lexical normalization is NOT idempotent — on
`"xy概念概念"` one application strips a single `"概念"` suffix (leaving
`"xy概念"`), and a second application strips another. -/
theorem lexical_normalize_not_idempotent_cex :
    lexicalNormalizeStr "xy概念概念" = "xy概念"
    ∧ lexicalNormalizeStr (lexicalNormalizeStr "xy概念概念") = "xy"
    ∧ lexicalNormalizeStr (lexicalNormalizeStr "xy概念概念")
      ≠ lexicalNormalizeStr "xy概念概念" := by decide

/-- C5 (amended): lexical normalization is idempotent on every string
whose normalization does not itself still end in a strippable noise
suffix (one whose removal would leave at least two characters); inputs
with stacked noise suffixes, such as `"xy概念概念"`, violate
unconditional idempotence. -/
theorem lexical_normalize_conditional_idem (s : String)
    (h : ∀ sfx ∈ noiseSuffixes,
      ¬(sfx.isSuffixOf (lexicalNormalizeStr s).toList
        ∧ sfx.length + 1 < (lexicalNormalizeStr s).toList.length)) :
    lexicalNormalizeStr (lexicalNormalizeStr s) = lexicalNormalizeStr s := by
  have h2 : ∀ sfx ∈ noiseSuffixes,
      ¬(sfx.isSuffixOf (lexicalNormalize s.toList)
        ∧ sfx.length + 1 < (lexicalNormalize s.toList).length) := h
  show String.mk (lexicalNormalize (lexicalNormalize s.toList))
    = String.mk (lexicalNormalize s.toList)
  rw [lexicalNormalize_fix s.toList h2]

/-- Witness for the amended C5 at a concrete stable input. -/
theorem lexical_normalize_conditional_idem_witness :
    (∀ sfx ∈ noiseSuffixes,
      ¬(sfx.isSuffixOf (lexicalNormalizeStr "Gradient Descent的概念").toList
        ∧ sfx.length + 1
          < (lexicalNormalizeStr "Gradient Descent的概念").toList.length))
    ∧ lexicalNormalizeStr (lexicalNormalizeStr "Gradient Descent的概念")
      = lexicalNormalizeStr "Gradient Descent的概念"
    ∧ lexicalNormalizeStr "Gradient Descent的概念" = "gradient descent" := by
  refine ⟨by decide, ?_, by decide⟩
  exact lexical_normalize_conditional_idem "Gradient Descent的概念" (by decide)

/-! ## C6 -/

/-- C6 counterexample: the suffix condition requires at least TWO
remaining characters, not one — `"x概念"` ends in the noise suffix
`"概念"` with the non-empty remainder `"x"`, yet the output retains the
suffix. -/
theorem noise_suffix_retained_cex :
    lexicalNormalizeStr "x概念" = "x概念"
    ∧ "概念".toList.isSuffixOf (lexicalNormalizeStr "x概念").toList = true
    ∧ "概念".toList.length < "x概念".toList.length := by decide

/-- C6 (amended): at its check in the loop, a noise suffix is stripped
exactly when the text ends with it and removing it leaves at least TWO
characters (the source condition `len(text) > len(suffix) + 1`); in
that case the step returns the whitespace-stripped prefix
`text[:-len(suffix)]`. -/
theorem strip_noise_step_characterization (t sfx : List Char)
    (hs : sfx ∈ noiseSuffixes) :
    (stripNoiseStep t sfx ≠ t ↔
      (sfx.isSuffixOf t ∧ sfx.length + 2 ≤ t.length))
    ∧ (sfx.isSuffixOf t → sfx.length + 2 ≤ t.length →
        stripNoiseStep t sfx
          = pyStrip (t.take (t.length - sfx.length))) := by
  have hsne : sfx ≠ [] := by
    simp only [noiseSuffixes, List.mem_cons, List.not_mem_nil,
      or_false] at hs
    rcases hs with rfl | rfl | rfl <;> decide
  have hslen : 1 ≤ sfx.length := List.length_pos.mpr hsne
  constructor
  · constructor
    · intro hne
      by_cases hcond : sfx.isSuffixOf t ∧ sfx.length + 1 < t.length
      · exact ⟨hcond.1, by omega⟩
      · exact absurd (by unfold stripNoiseStep; rw [if_neg hcond]) hne
    · rintro ⟨h1, h2⟩
      unfold stripNoiseStep
      rw [if_pos ⟨h1, by omega⟩]
      intro heq
      have hlen : (pyStrip (t.take (t.length - sfx.length))).length
          ≤ t.length - sfx.length :=
        (pyStrip_length_le _).trans
          (le_of_eq_of_le (List.length_take _ _) (min_le_left _ _))
      rw [heq] at hlen
      omega
  · intro h1 h2
    unfold stripNoiseStep
    rw [if_pos ⟨h1, by omega⟩]

/-- Witness for the amended C6: on `"xy概念"` the `"概念"` check fires
(two characters remain) and strips the suffix. -/
theorem strip_noise_step_characterization_witness :
    ("概念".toList ∈ noiseSuffixes)
    ∧ stripNoiseStep "xy概念".toList "概念".toList ≠ "xy概念".toList
    ∧ stripNoiseStep "xy概念".toList "概念".toList
      = pyStrip ("xy概念".toList.take
          ("xy概念".toList.length - "概念".toList.length)) := by
  refine ⟨by decide, ?_, ?_⟩
  · exact (strip_noise_step_characterization "xy概念".toList "概念".toList
      (by decide)).1.mpr ⟨by decide, by decide⟩
  · exact (strip_noise_step_characterization "xy概念".toList "概念".toList
      (by decide)).2 (by decide) (by decide)

end DeepStudy
